import Mathlib

/-!
Verification of the KMP search engine in `src/search.py`.

Strings are modelled as `List Char`; Python integers as `Nat` (all counters in
the source start at 0 and are only incremented, or reset to prefix-table
values, so they never go negative); Python `IndexError` and the fuel needed to
embed `while` loops are surfaced through `Except ScanErr`.  Python's dynamic
argument types for the entry-point `search` are modelled by the `PyObj`
universe below.
-/

namespace KMPSearch

/-- The set of occurrence start offsets of `p` in `s`, ascending:
all `o` with `(s.drop o).take p.length = p`, listed in increasing order. -/
def occList (s p : List Char) : List Nat :=
  (List.range (s.length + 1 - p.length)).filter
    (fun o => decide ((s.drop o).take p.length = p))

/-- Errors that a scan loop can surface: a Python `IndexError`, or exhaustion
of the fuel used to embed the `while` loop (never reached with the fuel the
wrappers supply, see the no-fuel-exhaustion lemmas). -/
inductive ScanErr
  | indexError
  | outOfFuel
deriving DecidableEq, Repr

/-- Loop body of `KMPAlgorithm._get_pi_list` (src/search.py lines 134-152):
state `(i, j, piL)`, iterated on fuel.  Out-of-range reads use `getD`
(they do not occur in reachable states: `j < i < p.length` throughout). -/
def getPiListAux (p : List Char) : Nat → Nat → Nat → List Nat → List Nat
  | 0, _, _, piL => piL
  | fuel+1, i, j, piL =>
    if i < p.length then
      if p.getD i default == p.getD j default then
        getPiListAux p fuel (i+1) (j+1) (piL.set i (j+1))
      else if j ≠ 0 then
        getPiListAux p fuel i (piL.getD (j-1) 0) piL
      else
        getPiListAux p fuel (i+1) j (piL.set i 0)
    else piL

/-- `KMPAlgorithm._get_pi_list`: the KMP failure-function table. -/
def getPiList (p : List Char) : List Nat :=
  getPiListAux p ((p.length + 1) * (p.length + 1)) 1 0 (List.replicate p.length 0)

/-- Loop body of `KMPAlgorithm._search_first` (src/search.py lines 74-101):
state `(i, j, acc)`, iterated on fuel.  All indexing is checked, mirroring
Python's `IndexError`. -/
def searchFirstLoop (s p : List Char) (piL : List Nat) (count : Option Nat) :
    Nat → Nat → Nat → List Nat → Except ScanErr (List Nat)
  | 0, _, _, _ => .error .outOfFuel
  | fuel+1, i, j, acc =>
    if p.length - j ≤ s.length - i then
      match p[j]?, s[i]? with
      | some pc, some sc =>
        let i' := if pc == sc then i + 1 else i
        let j' := if pc == sc then j + 1 else j
        if j' = p.length then
          let acc' := acc ++ [i' - j']
          if count == some acc'.length then .ok acc'
          else
            match piL[j' - 1]? with
            | some t => searchFirstLoop s p piL count fuel i' t acc'
            | none => .error .indexError
        else if i' < s.length then
          match p[j']?, s[i']? with
          | some pc', some sc' =>
            if pc' ≠ sc' then
              if j' ≠ 0 then
                match piL[j' - 1]? with
                | some t => searchFirstLoop s p piL count fuel i' t acc
                | none => .error .indexError
              else searchFirstLoop s p piL count fuel (i' + 1) j' acc
            else searchFirstLoop s p piL count fuel i' j' acc
          | _, _ => .error .indexError
        else searchFirstLoop s p piL count fuel i' j' acc
      | _, _ => .error .indexError
    else .ok acc

/-- `KMPAlgorithm._search_first` before the `tuple(result) if result else None`
conversion: the raw list of recorded offsets. -/
def searchFirstRaw (s p : List Char) (count : Option Nat) : Except ScanErr (List Nat) :=
  searchFirstLoop s p (getPiList p) count ((s.length + 1) * (p.length + 1)) 0 0 []

/-- `tuple(result) if result else None` (empty result becomes `None`). -/
def toMatchSet (l : List Nat) : Option (List Nat) :=
  if l.isEmpty then none else some l

/-- `KMPAlgorithm._search_first`. -/
def searchFirst (s p : List Char) (count : Option Nat) :
    Except ScanErr (Option (List Nat)) :=
  (searchFirstRaw s p count).map toMatchSet

/-- Loop body of `KMPAlgorithm._search_last` (src/search.py lines 103-131):
like the forward loop but comparing `p[p.length-1-j]` with
`s[s.length-1-i]` and recording `s.length - i`.  Note the prefix table it
consumes is built on the forward pattern, exactly as in the source. -/
def searchLastLoop (s p : List Char) (piL : List Nat) (count : Option Nat) :
    Nat → Nat → Nat → List Nat → Except ScanErr (List Nat)
  | 0, _, _, _ => .error .outOfFuel
  | fuel+1, i, j, acc =>
    if p.length - j ≤ s.length - i then
      match p[p.length - 1 - j]?, s[s.length - 1 - i]? with
      | some pc, some sc =>
        let i' := if pc == sc then i + 1 else i
        let j' := if pc == sc then j + 1 else j
        if j' = p.length then
          let acc' := acc ++ [s.length - i']
          if count == some acc'.length then .ok acc'
          else
            match piL[j' - 1]? with
            | some t => searchLastLoop s p piL count fuel i' t acc'
            | none => .error .indexError
        else if i' < s.length then
          match p[p.length - 1 - j']?, s[s.length - 1 - i']? with
          | some pc', some sc' =>
            if pc' ≠ sc' then
              if j' ≠ 0 then
                match piL[j' - 1]? with
                | some t => searchLastLoop s p piL count fuel i' t acc
                | none => .error .indexError
              else searchLastLoop s p piL count fuel (i' + 1) j' acc
            else searchLastLoop s p piL count fuel i' j' acc
          | _, _ => .error .indexError
        else searchLastLoop s p piL count fuel i' j' acc
      | _, _ => .error .indexError
    else .ok acc

/-- `KMPAlgorithm._search_last` before the tuple/None conversion. -/
def searchLastRaw (s p : List Char) (count : Option Nat) : Except ScanErr (List Nat) :=
  searchLastLoop s p (getPiList p) count ((s.length + 1) * (p.length + 1)) 0 0 []

/-- `KMPAlgorithm._search_last`. -/
def searchLast (s p : List Char) (count : Option Nat) :
    Except ScanErr (Option (List Nat)) :=
  (searchLastRaw s p count).map toMatchSet

/-- Result values of `KMPAlgorithm.search`, mirroring
`Optional[Union[tuple[int, ...], dict[str, tuple[int, ...]]]]`:
Python `None`, a tuple of offsets, or a dict from pattern to tuple-or-None. -/
inductive PyResult
  | noneRes
  | tupleRes (offs : List Nat)
  | dictRes (entries : List (List Char × Option (List Nat)))
deriving DecidableEq, Repr

/-- Key list of `{}.fromkeys(subs)`: first occurrences, duplicates dropped
(Python dict keys are unique and keep insertion order). -/
def dictKeys (l : List (List Char)) : List (List Char) :=
  l.foldl (fun acc k => if k ∈ acc then acc else acc ++ [k]) []

/-- `KMPAlgorithm._convert_result` (src/search.py lines 155-167). -/
def convertResult (entries : List (List Char × Option (List Nat))) : PyResult :=
  match entries with
  | [] => .noneRes
  | [(_, v)] =>
    match v with
    | none => .noneRes
    | some t => .tupleRes t
  | _ =>
    if entries.all (fun e => e.2 == none) then .noneRes
    else .dictRes entries

def firstLit : List Char := ['f', 'i', 'r', 's', 't']

def lastLit : List Char := ['l', 'a', 's', 't']

/-- `KMPAlgorithm.search` (src/search.py lines 62-72) on a normalized text and
pattern list: scans each distinct pattern in first-occurrence order with the
requested direction, then shapes the dict with `_convert_result`. -/
def searchEngine (s : List Char) (subs : List (List Char)) (method : List Char)
    (count : Option Nat) : Except ScanErr PyResult := do
  let entries ← (dictKeys subs).mapM (fun k => do
    let r ← (if method = firstLit then searchFirst s k count else searchLast s k count)
    pure (k, r))
  pure (convertResult entries)

/-- Universe of Python values supplied to `search`'s parameters. -/
inductive PyObj
  | str (s : List Char)
  | int (n : Int)
  | bool (b : Bool)
  | list (l : List PyObj)
  | tuple (l : List PyObj)
  | pynone

/-- Errors of the full pipeline: Python `TypeError`, `ValueError`, or an error
escaping a scan loop. -/
inductive PyErr
  | typeError
  | valueError
  | scan (e : ScanErr)
deriving DecidableEq, Repr

def isStr : PyObj → Bool
  | .str _ => true
  | _ => false

def isBool : PyObj → Bool
  | .bool _ => true
  | _ => false

/-- `isinstance(x, int)`; Python's `bool` is a subclass of `int`. -/
def isInt : PyObj → Bool
  | .int _ => true
  | .bool _ => true
  | _ => false

def isListOrTuple : PyObj → Bool
  | .list _ => true
  | .tuple _ => true
  | _ => false

def isNone : PyObj → Bool
  | .pynone => true
  | _ => false

/-- Integer value of an `int`-like object (`True == 1`, `False == 0`). -/
def pyIntVal : PyObj → Int
  | .int n => n
  | .bool b => if b then 1 else 0
  | _ => 0

def seqElems : PyObj → List PyObj
  | .list l => l
  | .tuple l => l
  | _ => []

def getStr : PyObj → List Char
  | .str s => s
  | _ => []

/-- `KMPAlgorithm._validate` (src/search.py lines 170-196): `some e` is the
raised error, `none` means all checks pass. -/
def validate (string sub_string case_sensitivity method count : PyObj) :
    Option PyErr :=
  if ¬ isStr string then some .typeError
  else if ¬ isStr sub_string ∧ ¬ isListOrTuple sub_string then some .typeError
  else if ¬ isStr sub_string ∧ ¬ (seqElems sub_string).all isStr then some .typeError
  else if ¬ isBool case_sensitivity then some .typeError
  else if ¬ isStr method then some .typeError
  else if ¬ (getStr method = firstLit ∨ getStr method = lastLit) then some .valueError
  else if ¬ isNone count ∧ ¬ isInt count then some .typeError
  else if ¬ isNone count ∧ pyIntVal count < 1 then some .valueError
  else none

/-- `str.lower()`; the repository only exercises ASCII, where Python's
`lower` agrees with `Char.toLower` character by character. -/
def pyLower (s : List Char) : List Char := s.map Char.toLower

/-- Promotion of a single pattern string to a one-element list
(`if isinstance(sub_string, str): self._sub_string = [sub_string]`). -/
def normPatterns (sub_string : PyObj) : List (List Char) :=
  match sub_string with
  | .str s => [s]
  | o => (seqElems o).map getStr

/-- Embedding of the caller's view of scan failures: a scan error escapes
`search` unchanged (there is no handler in the source). -/
def wrapScan : Except ScanErr PyResult → Except PyErr PyResult
  | .ok r => .ok r
  | .error e => .error (.scan e)

/-- The full pipeline: `KMPAlgorithm.__init__` (validation plus case
normalization, src/search.py lines 42-60) followed by `KMPAlgorithm.search`. -/
def searchPy (string sub_string case_sensitivity method count : PyObj) :
    Except PyErr PyResult :=
  match validate string sub_string case_sensitivity method count with
  | some e => .error e
  | none =>
    let cs := match case_sensitivity with
      | .bool b => b
      | _ => false
    let s0 := getStr string
    let subs0 := normPatterns sub_string
    let s := if cs then s0 else pyLower s0
    let subs := if cs then subs0 else subs0.map pyLower
    let cnt : Option Nat := match count with
      | .pynone => none
      | .int n => some n.toNat
      | .bool b => some (if b then 1 else 0)
      | _ => none
    wrapScan (searchEngine s subs (getStr method) cnt)

/-! ### Border theory: the specification of the failure function -/

/-- `k` is a border length of the length-`i` window `p.take i`: the length-`k`
prefix of `p` is also a suffix of that window. -/
def IsBord (p : List Char) (i k : Nat) : Prop :=
  k ≤ i ∧ p.take k <:+ p.take i

/-- `b` is the length of the longest proper prefix of `p` that is also a
suffix of `p.take i` — the textbook value of the KMP failure function for the
window of length `i` (proper: the candidate lengths are those `< i`). -/
def IsMaxBord (p : List Char) (i b : Nat) : Prop :=
  IsBord p i b ∧ b < i ∧ ∀ l, l < i → IsBord p i l → l ≤ b

lemma isBord_zero (p : List Char) (i : Nat) : IsBord p i 0 :=
  ⟨Nat.zero_le _, by simp⟩

lemma isBord_trans {p : List Char} {i k k' : Nat}
    (h1 : IsBord p i k) (h2 : IsBord p k k') : IsBord p i k' :=
  ⟨h2.1.trans h1.1, h2.2.trans h1.2⟩

lemma isBord_isBord {p : List Char} {i a c : Nat}
    (h1 : IsBord p i a) (h2 : IsBord p i c) (hac : a ≤ c) (hc : c ≤ p.length) :
    IsBord p c a := by
  refine ⟨hac, ?_⟩
  apply List.suffix_of_suffix_length_le h1.2 h2.2
  simp only [List.length_take]
  omega

lemma concat_suffix_concat {u v : List Char} {a b : Char} :
    u ++ [a] <:+ v ++ [b] ↔ a = b ∧ u <:+ v := by
  constructor
  · rintro ⟨t, ht⟩
    rw [← List.append_assoc] at ht
    obtain ⟨h1, h2⟩ := List.append_inj' ht rfl
    exact ⟨(by injection h2), ⟨t, h1⟩⟩
  · rintro ⟨rfl, t, rfl⟩
    exact ⟨t, by rw [List.append_assoc]⟩

lemma take_succ_of_lt {p : List Char} {i : Nat} (hi : i < p.length) :
    p.take (i+1) = p.take i ++ [p.getD i default] := by
  rw [List.take_succ, List.getElem?_eq_getElem hi, List.getD_eq_getElem p default hi]
  rfl

/-- Border extension: a nonzero border of the extended window is a border of
the current window whose next pattern character matches the window's last. -/
lemma isBord_succ_iff {p : List Char} {i k : Nat} (hi : i < p.length) (hk : k ≤ i) :
    IsBord p (i+1) (k+1) ↔ IsBord p i k ∧ p.getD k default = p.getD i default := by
  have hkp : k < p.length := lt_of_le_of_lt hk hi
  rw [IsBord, IsBord, take_succ_of_lt hi, take_succ_of_lt hkp, concat_suffix_concat]
  constructor
  · rintro ⟨hle, heq, hsuf⟩
    exact ⟨⟨hk, hsuf⟩, heq⟩
  · rintro ⟨⟨_, hsuf⟩, heq⟩
    exact ⟨Nat.succ_le_succ hk, heq, hsuf⟩

lemma getD_set_ne {l : List Nat} {i t v : Nat} (hne : i ≠ t) :
    (l.set i v).getD t 0 = l.getD t 0 := by
  simp [List.getD_eq_getD_get?, List.get?_eq_getElem?, List.getElem?_set_ne hne]

lemma getD_set_eq {l : List Nat} {i v : Nat} (h : i < l.length) :
    (l.set i v).getD i 0 = v := by
  simp [List.getD_eq_getD_get?, List.get?_eq_getElem?, List.getElem?_set_eq_of_lt _ h]

/-- Loop invariant of `_get_pi_list` at the top of the `while` loop. -/
def PiInv (p : List Char) (i j : Nat) (piL : List Nat) : Prop :=
  1 ≤ i ∧ j < i ∧ i ≤ p.length ∧ piL.length = p.length ∧
  (∀ t, t < i → IsMaxBord p (t+1) (piL.getD t 0)) ∧
  IsBord p i j ∧
  (i < p.length → ∀ l, l ≤ i → IsBord p (i+1) l → l ≤ j + 1)

lemma getPiListAux_succ (p : List Char) (f i j : Nat) (piL : List Nat) :
    getPiListAux p (f+1) i j piL =
      if i < p.length then
        if p.getD i default == p.getD j default then
          getPiListAux p f (i+1) (j+1) (piL.set i (j+1))
        else if j ≠ 0 then
          getPiListAux p f i (piL.getD (j-1) 0) piL
        else
          getPiListAux p f (i+1) j (piL.set i 0)
      else piL := rfl

/-- The `_get_pi_list` loop, run with enough fuel from any state satisfying
the invariant, produces the textbook failure-function table. -/
lemma getPiListAux_spec (p : List Char) :
    ∀ fuel i j piL, PiInv p i j piL →
      (p.length - i) * (p.length + 1) + j < fuel →
      (getPiListAux p fuel i j piL).length = p.length ∧
      ∀ t, t < p.length → IsMaxBord p (t+1) ((getPiListAux p fuel i j piL).getD t 0) := by
  intro fuel
  induction fuel with
  | zero => intro i j piL _ hf; exact absurd hf (Nat.not_lt_zero _)
  | succ f ih =>
    intro i j piL hInv hf
    obtain ⟨hi1, hji, him, hlen, hents, hbord, hmax⟩ := hInv
    by_cases hguard : i < p.length
    · by_cases hc : p.getD i default = p.getD j default
      · -- character match: advance both cursors, record entry j+1 at i
        have hstep : getPiListAux p (f+1) i j piL
            = getPiListAux p f (i+1) (j+1) (piL.set i (j+1)) := by
          rw [getPiListAux_succ, if_pos hguard, if_pos (beq_iff_eq.mpr hc)]
        have hbord' : IsBord p (i+1) (j+1) :=
          (isBord_succ_iff hguard (le_of_lt hji)).mpr ⟨hbord, hc.symm⟩
        have hmaxb : IsMaxBord p (i+1) (j+1) := by
          refine ⟨hbord', Nat.succ_lt_succ hji, ?_⟩
          intro l hl hbl
          exact hmax hguard l (Nat.lt_succ_iff.mp hl) hbl
        rw [hstep]
        apply ih
        · refine ⟨le_trans hi1 (Nat.le_succ _), Nat.succ_lt_succ hji, hguard,
            by simp [hlen], ?_, hbord', ?_⟩
          · intro t ht
            rcases Nat.lt_succ_iff_lt_or_eq.mp ht with ht' | rfl
            · rw [getD_set_ne (by omega)]
              exact hents t ht'
            · rw [getD_set_eq (by omega)]
              exact hmaxb
          · intro hi2 l hl hbl
            match l with
            | 0 => omega
            | l'+1 =>
              have h2 := (isBord_succ_iff hi2 (by omega)).mp hbl
              have hl' : l' ≤ j + 1 := hmaxb.2.2 l' (by omega) h2.1
              omega
        · have h1 : p.length - i = (p.length - (i+1)) + 1 := by omega
          rw [h1, Nat.succ_mul] at hf
          generalize (p.length - (i+1)) * (p.length + 1) = A at hf ⊢
          omega
      · by_cases hj0 : j = 0
        · -- mismatch with j = 0: record 0 at i and advance i
          subst hj0
          have hstep : getPiListAux p (f+1) i 0 piL
              = getPiListAux p f (i+1) 0 (piL.set i 0) := by
            rw [getPiListAux_succ, if_pos hguard,
              if_neg (by simpa [beq_iff_eq] using hc),
              if_neg (by simp : ¬ (0 : Nat) ≠ 0)]
          have hmaxb0 : IsMaxBord p (i+1) 0 := by
            refine ⟨isBord_zero p (i+1), Nat.succ_pos i, ?_⟩
            intro l hl hbl
            match l with
            | 0 => exact le_refl 0
            | l'+1 =>
              have h2 := (isBord_succ_iff hguard (by omega)).mp hbl
              have hl1 : l' + 1 ≤ 0 + 1 := hmax hguard (l'+1) (by omega) hbl
              have hl0 : l' = 0 := by omega
              subst hl0
              exact absurd h2.2.symm hc
          rw [hstep]
          apply ih
          · refine ⟨le_trans hi1 (Nat.le_succ _), Nat.succ_pos i, hguard,
              by simp [hlen], ?_, isBord_zero p (i+1), ?_⟩
            · intro t ht
              rcases Nat.lt_succ_iff_lt_or_eq.mp ht with ht' | rfl
              · rw [getD_set_ne (by omega)]
                exact hents t ht'
              · rw [getD_set_eq (by omega)]
                exact hmaxb0
            · intro hi2 l hl hbl
              match l with
              | 0 => omega
              | l'+1 =>
                have h2 := (isBord_succ_iff hi2 (by omega)).mp hbl
                have hl' : l' ≤ 0 := hmaxb0.2.2 l' (by omega) h2.1
                omega
          · have h1 : p.length - i = (p.length - (i+1)) + 1 := by omega
            rw [h1, Nat.succ_mul] at hf
            generalize (p.length - (i+1)) * (p.length + 1) = A at hf ⊢
            omega
        · -- mismatch with j > 0: fall back to the table value at j-1
          have hstep : getPiListAux p (f+1) i j piL
              = getPiListAux p f i (piL.getD (j-1) 0) piL := by
            rw [getPiListAux_succ, if_pos hguard,
              if_neg (by simpa [beq_iff_eq] using hc), if_pos hj0]
          have hmb : IsMaxBord p j (piL.getD (j-1) 0) := by
            have h := hents (j-1) (by omega)
            rwa [Nat.sub_add_cancel (by omega)] at h
          rw [hstep]
          apply ih
          · refine ⟨hi1, lt_trans hmb.2.1 hji, him, hlen, hents,
              isBord_trans hbord hmb.1, ?_⟩
            intro hi2 l hl hbl
            match l with
            | 0 => omega
            | l'+1 =>
              have h2 := (isBord_succ_iff hguard (by omega)).mp hbl
              have hlj : l' + 1 ≤ j + 1 := hmax hguard (l'+1) hl hbl
              have hlj' : l' < j := by
                rcases Nat.lt_or_eq_of_le (by omega : l' ≤ j) with h | h
                · exact h
                · subst h
                  exact absurd h2.2.symm hc
              have hb'j : IsBord p j l' :=
                isBord_isBord h2.1 hbord (le_of_lt hlj')
                  (le_of_lt (lt_of_lt_of_le hji him))
              have := hmb.2.2 l' hlj' hb'j
              omega
          · have hjj : piL.getD (j-1) 0 < j := hmb.2.1
            generalize (p.length - i) * (p.length + 1) = A at hf ⊢
            omega
    · -- loop exit: i = p.length, table is final
      have hie : i = p.length := le_antisymm him (le_of_not_lt hguard)
      have hstep : getPiListAux p (f+1) i j piL = piL := by
        rw [getPiListAux_succ, if_neg hguard]
      rw [hstep]
      exact ⟨hlen, fun t ht => hents t (hie ▸ ht)⟩

/-- `_get_pi_list` meets the textbook failure-function specification. -/
lemma getPiList_spec (p : List Char) (hp : p ≠ []) :
    (getPiList p).length = p.length ∧
    ∀ t, t < p.length → IsMaxBord p (t+1) ((getPiList p).getD t 0) := by
  have hm : 1 ≤ p.length := List.length_pos.mpr hp
  apply getPiListAux_spec
  · refine ⟨le_refl 1, Nat.zero_lt_one, hm, by simp, ?_, isBord_zero p 1, ?_⟩
    · intro t ht
      have ht0 : t = 0 := by omega
      subst ht0
      have hz : (List.replicate p.length 0).getD 0 0 = 0 := by
        simp [List.getD_eq_getD_get?, List.get?_eq_getElem?]
      rw [hz]
      exact ⟨isBord_zero p 1, Nat.zero_lt_one, fun l hl _ => by omega⟩
    · intro _ l hl _
      omega
  · have h1 : (p.length - 1) * (p.length + 1) ≤ p.length * (p.length + 1) :=
      Nat.mul_le_mul_right _ (by omega)
    have h2 : p.length * (p.length + 1) < (p.length + 1) * (p.length + 1) :=
      (Nat.mul_lt_mul_right (by omega : 0 < p.length + 1)).mpr (by omega)
    omega

/-! ### Occurrence theory: the specification of the scans -/

lemma occList_mem {s p : List Char} {o : Nat} :
    o ∈ occList s p ↔ o + p.length ≤ s.length ∧ (s.drop o).take p.length = p := by
  simp only [occList, List.mem_filter, List.mem_range, decide_eq_true_eq]
  constructor
  · rintro ⟨h1, h2⟩
    exact ⟨by omega, h2⟩
  · rintro ⟨h1, h2⟩
    exact ⟨by omega, h2⟩

lemma occList_sorted (s p : List Char) : (occList s p).Pairwise (· < ·) :=
  List.Pairwise.filter _ (List.sorted_lt_range _)

lemma sorted_eq_of_mem_iff :
    ∀ {l1 l2 : List Nat}, l1.Pairwise (· < ·) → l2.Pairwise (· < ·) →
      (∀ x, x ∈ l1 ↔ x ∈ l2) → l1 = l2 := by
  intro l1
  induction l1 with
  | nil =>
    intro l2 _ _ hm
    cases l2 with
    | nil => rfl
    | cons b t2 => exact absurd ((hm b).mpr (List.mem_cons_self b t2)) (List.not_mem_nil b)
  | cons a t ih =>
    intro l2 h1 h2 hm
    cases l2 with
    | nil => exact absurd ((hm a).mp (List.mem_cons_self a t)) (List.not_mem_nil a)
    | cons b t2 =>
      have hab : a = b := by
        have ha2 : a ∈ b :: t2 := (hm a).mp (List.mem_cons_self a t)
        have hb1 : b ∈ a :: t := (hm b).mpr (List.mem_cons_self b t2)
        rcases List.mem_cons.mp ha2 with h | h
        · exact h
        · rcases List.mem_cons.mp hb1 with h' | h'
          · exact h'.symm
          · have hba := (List.pairwise_cons.mp h2).1 a h
            have hab' := (List.pairwise_cons.mp h1).1 b h'
            omega
      subst hab
      congr 1
      apply ih (List.pairwise_cons.mp h1).2 (List.pairwise_cons.mp h2).2
      intro x
      constructor
      · intro hx
        have hx2 := (hm x).mp (List.mem_cons_of_mem _ hx)
        rcases List.mem_cons.mp hx2 with h | h
        · subst h
          exact absurd ((List.pairwise_cons.mp h1).1 _ hx) (lt_irrefl _)
        · exact h
      · intro hx
        have hx1 := (hm x).mpr (List.mem_cons_of_mem _ hx)
        rcases List.mem_cons.mp hx1 with h | h
        · subst h
          exact absurd ((List.pairwise_cons.mp h2).1 _ hx) (lt_irrefl _)
        · exact h

/-- Filtering a strictly sorted list by a downward-closed predicate keeps an
initial segment. -/
lemma filter_dc_eq_take {P : Nat → Bool} :
    ∀ {l : List Nat}, l.Pairwise (· < ·) →
      (∀ x y, x ≤ y → P y = true → P x = true) →
      l.filter P = l.take (l.filter P).length := by
  intro l
  induction l with
  | nil => intro _ _; rfl
  | cons a t ih =>
    intro hs hdc
    by_cases hPa : P a = true
    · rw [List.filter_cons_of_pos hPa]
      simp only [List.length_cons, List.take_succ_cons]
      rw [← ih (List.pairwise_cons.mp hs).2 hdc]
    · rw [List.filter_cons_of_neg (by simpa using hPa)]
      have ht : t.filter P = [] := by
        rw [List.filter_eq_nil_iff]
        intro x hx hPx
        exact hPa (hdc a x (Nat.le_of_lt ((List.pairwise_cons.mp hs).1 x hx)) hPx)
      rw [ht]
      rfl

/-- Inside an occurrence at `x`, the first `t - x` pattern characters form a
suffix of `s.take t`. -/
lemma occ_window {s p : List Char} {x t : Nat} (hx : x ∈ occList s p)
    (h1 : x ≤ t) (h2 : t ≤ x + p.length) :
    p.take (t - x) <:+ s.take t := by
  obtain ⟨hlen, hslice⟩ := occList_mem.mp hx
  have hkey : (s.drop x).take (t - x) = p.take (t - x) := by
    rw [← hslice, List.take_take, Nat.min_eq_left (by omega : t - x ≤ p.length)]
  have ht : t = x + (t - x) := by omega
  exact ⟨s.take x, by rw [ht, List.take_add, hkey]; simp [Nat.add_sub_cancel_left]⟩

/-- Characters inside an occurrence: `s[x+u] = p[u]`. -/
lemma occ_char {s p : List Char} {x u : Nat} (hx : x ∈ occList s p)
    (hu : u < p.length) : s[x + u]? = p[u]? := by
  obtain ⟨hlen, hslice⟩ := occList_mem.mp hx
  rw [← hslice, List.getElem?_take_of_lt hu, List.getElem?_drop]

/-- A full-pattern suffix of `s.take t` is an occurrence at `t - p.length`. -/
lemma occ_of_suffix {s p : List Char} {t : Nat}
    (hsuf : p <:+ s.take t) (h1 : p.length ≤ t) (h2 : t ≤ s.length) :
    (t - p.length) ∈ occList s p := by
  rw [occList_mem]
  refine ⟨by omega, ?_⟩
  obtain ⟨u, hu⟩ := hsuf
  have hul : u.length = t - p.length := by
    have hl := congrArg List.length hu
    simp only [List.length_append, List.length_take] at hl
    omega
  have hd : (s.take t).drop u.length = p := by rw [← hu, List.drop_left]
  rw [List.drop_take, hul] at hd
  have htx : t - (t - p.length) = p.length := by omega
  rw [htx] at hd
  exact hd

/-- Extending the partial match by one equal character. -/
lemma window_extend {s p : List Char} {i j : Nat} (hj : j < p.length)
    (hi : i < s.length) (hw : p.take j <:+ s.take i)
    (hc : p.getD j default = s.getD i default) :
    p.take (j+1) <:+ s.take (i+1) := by
  rw [take_succ_of_lt hj, take_succ_of_lt hi, concat_suffix_concat]
  exact ⟨hc, hw⟩

/-- Completeness of a failure-function fallback in the forward scan: an
occurrence compatible with the shortened partial match of length `t` was
already compatible with the current one of length `J`. -/
lemma fallback_complete {s p : List Char} {I J t x : Nat}
    (hJm : J < p.length) (hIn : I < s.length)
    (hwin : p.take J <:+ s.take I)
    (hne : ¬ p.getD J default = s.getD I default)
    (hmb : IsMaxBord p J t)
    (hx : x ∈ occList s p) (hxt : x + t < I) :
    x + J < I := by
  by_contra hcon
  push_neg at hcon
  have hk1 : t < I - x := by omega
  have hk2 : I - x ≤ J := by omega
  have hxI : x ≤ I := by omega
  rcases Nat.lt_or_eq_of_le hk2 with hlt | heq
  · have h1 : p.take (I - x) <:+ s.take I := occ_window hx hxI (by omega)
    have h2 : IsBord p J (I - x) := by
      refine ⟨Nat.le_of_lt hlt, ?_⟩
      apply List.suffix_of_suffix_length_le h1 hwin
      simp only [List.length_take]
      omega
    exact absurd (hmb.2.2 (I - x) hlt h2) (by omega)
  · have hchar := occ_char hx hJm
    have hxJ : x + J = I := by omega
    rw [hxJ] at hchar
    apply hne
    rw [List.getElem?_eq_getElem hIn, List.getElem?_eq_getElem hJm] at hchar
    rw [List.getD_eq_getElem p default hJm, List.getD_eq_getElem s default hIn]
    exact (Option.some.inj hchar).symm

/-- Completeness after a recorded match: an occurrence compatible with the
post-record fallback length `t` ends at or before the recorded position. -/
lemma record_complete {s p : List Char} {I t x : Nat}
    (hfull : p.take p.length <:+ s.take I)
    (hmb : IsMaxBord p p.length t)
    (hx : x ∈ occList s p) (hxt : x + t < I) :
    x + p.length ≤ I := by
  by_contra hcon
  push_neg at hcon
  have hk1 : t < I - x := by omega
  have hk2 : I - x < p.length := by omega
  have hxI : x ≤ I := by omega
  have h1 : p.take (I - x) <:+ s.take I := occ_window hx hxI (by omega)
  have h2 : IsBord p p.length (I - x) := by
    refine ⟨by omega, ?_⟩
    apply List.suffix_of_suffix_length_le h1 hfull
    simp only [List.length_take]
    omega
  exact absurd (hmb.2.2 (I - x) hk2 h2) (by omega)

/-- Loop invariant of the `_search_first` `while` loop: the window of length
`j` ending at `i` matches, `acc` holds exactly the occurrences strictly left
of the window start, in ascending order, and an eventual cap is unreached. -/
def ScanInv (s p : List Char) (count : Option Nat) (i j : Nat) (acc : List Nat) : Prop :=
  j < p.length ∧ j ≤ i ∧ i ≤ s.length ∧
  p.take j <:+ s.take i ∧
  (∀ o, o ∈ acc ↔ o ∈ occList s p ∧ o + j < i) ∧
  acc.Pairwise (· < ·) ∧
  (∀ k, count = some k → acc.length < k)

/-- The value a scan must produce under an optional cap: all matches, or the
first `k` of them in production order. -/
def capResult (l : List Nat) (count : Option Nat) : List Nat :=
  match count with
  | none => l
  | some k => l.take k

/-- From any state satisfying the invariant, the `_search_first` loop with
sufficient fuel returns all occurrences, truncated by the cap. -/
lemma searchFirstLoop_spec (s p : List Char) (hp : p ≠ []) (count : Option Nat) :
    ∀ fuel i j acc, ScanInv s p count i j acc →
      (s.length - i) * (p.length + 1) + j < fuel →
      searchFirstLoop s p (getPiList p) count fuel i j acc
        = .ok (capResult (occList s p) count) := by
  obtain ⟨hπlen, hπ⟩ := getPiList_spec p hp
  intro fuel
  induction fuel with
  | zero => intro i j acc _ hf; exact absurd hf (Nat.not_lt_zero _)
  | succ f ih =>
    intro i j acc hInv hf
    obtain ⟨hjm, hji, hin, hwin, hmem, hsort, hcap⟩ := hInv
    by_cases hguard : p.length - j ≤ s.length - i
    case neg =>
      have hstep : searchFirstLoop s p (getPiList p) count (f+1) i j acc = .ok acc := by
        simp only [searchFirstLoop]
        rw [if_neg hguard]
      rw [hstep]
      have hacc : acc = occList s p := by
        apply sorted_eq_of_mem_iff hsort (occList_sorted s p)
        intro x
        rw [hmem x]
        constructor
        · exact fun h => h.1
        · intro hx
          refine ⟨hx, ?_⟩
          have hxx := (occList_mem.mp hx).1
          omega
      cases hc : count with
      | none => rw [hacc]; rfl
      | some k =>
        have hlt := hcap k hc
        rw [hacc] at hlt
        simp only [capResult]
        rw [hacc, List.take_of_length_le (Nat.le_of_lt hlt)]
    case pos =>
      have hilt : i < s.length := by omega
      have hpj : p[j]? = some (p.getD j default) := by
        rw [List.getElem?_eq_getElem hjm, List.getD_eq_getElem p default hjm]
      have hsi : s[i]? = some (s.getD i default) := by
        rw [List.getElem?_eq_getElem hilt, List.getD_eq_getElem s default hilt]
      have hπj : (getPiList p)[j]? = some ((getPiList p).getD j 0) := by
        have hjl : j < (getPiList p).length := by rw [hπlen]; exact hjm
        rw [List.getElem?_eq_getElem hjl, List.getD_eq_getElem _ 0 hjl]
      simp only [searchFirstLoop]
      rw [if_pos hguard]
      split
      · next pc sc heq1 heq2 =>
        rw [hpj] at heq1
        rw [hsi] at heq2
        have hpc : p.getD j default = pc := Option.some.inj heq1
        have hsc : s.getD i default = sc := Option.some.inj heq2
        subst hpc
        subst hsc
        by_cases hceq : p.getD j default = s.getD i default
        · -- the current characters match: both cursors advance
          have hb : (p.getD j default == s.getD i default) = true := beq_iff_eq.mpr hceq
          simp only [hb, if_true]
          have hwin' : p.take (j+1) <:+ s.take (i+1) := window_extend hjm hilt hwin hceq
          by_cases hrec : j + 1 = p.length
          · -- the pattern is fully matched: record offset i + 1 - p.length
            simp only [if_pos hrec]
            have hfull : p.take p.length <:+ s.take (i+1) := by rw [← hrec]; exact hwin'
            have hfullp : p <:+ s.take (i+1) := by
              have h := hfull
              rw [List.take_length] at h
              exact h
            have hosucc : p.length ≤ i + 1 := by omega
            have ho : (i + 1) - p.length ∈ occList s p :=
              occ_of_suffix hfullp hosucc (by omega)
            have hoeq : i + 1 - (j + 1) = i + 1 - p.length := by omega
            rw [hoeq]
            set orec := i + 1 - p.length with horec
            have haccmem : ∀ x, x ∈ acc ++ [orec] ↔ x ∈ occList s p ∧ x ≤ orec := by
              intro x
              rw [List.mem_append, List.mem_singleton, hmem x]
              constructor
              · rintro (⟨hxo, hxj⟩ | rfl)
                · exact ⟨hxo, by omega⟩
                · exact ⟨ho, le_refl _⟩
              · rintro ⟨hxo, hxle⟩
                rcases Nat.lt_or_eq_of_le hxle with h | h
                · exact Or.inl ⟨hxo, by omega⟩
                · exact Or.inr h
            have hsort' : (acc ++ [orec]).Pairwise (· < ·) := by
              rw [List.pairwise_append]
              refine ⟨hsort, List.pairwise_singleton _ _, ?_⟩
              intro x hx y hy
              rw [List.mem_singleton] at hy
              subst hy
              have hxm := (hmem x).mp hx
              omega
            have haccfilter :
                acc ++ [orec] = (occList s p).filter (fun x => decide (x ≤ orec)) := by
              apply sorted_eq_of_mem_iff hsort'
                (List.Pairwise.filter _ (occList_sorted s p))
              intro x
              rw [haccmem x, List.mem_filter]
              simp
            have hlen1 : (acc ++ [orec]).length = acc.length + 1 := by simp
            by_cases hbr : count = some (acc.length + 1)
            · -- the cap is reached: break and return
              have hbeq : (count == some ((acc ++ [orec]).length)) = true := by
                rw [hlen1, hbr]
                exact beq_self_eq_true _
              rw [if_pos hbeq]
              have hfiltake := filter_dc_eq_take (P := fun x => decide (x ≤ orec))
                (occList_sorted s p) (by intro x y hxy hPy; simp at hPy ⊢; omega)
              have hflen : ((occList s p).filter (fun x => decide (x ≤ orec))).length
                  = acc.length + 1 := by rw [← haccfilter]; exact hlen1
              rw [hbr]
              simp only [capResult]
              rw [haccfilter, hfiltake, hflen]
            · -- no cap hit: fall back via the table and continue
              have hbeq : ¬ (count == some ((acc ++ [orec]).length)) = true := by
                rw [hlen1]
                simp only [beq_iff_eq]
                exact hbr
              rw [if_neg hbeq]
              simp only [Nat.add_sub_cancel]
              rw [hπj]
              have hmbt : IsMaxBord p p.length ((getPiList p).getD j 0) := by
                have h := hπ j hjm
                rwa [hrec] at h
              set t := (getPiList p).getD j 0 with ht
              have htm : t < p.length := hmbt.2.1
              split
              · next t' heqt =>
                have htt : t = t' := Option.some.inj heqt
                subst htt
                apply ih
                · refine ⟨htm, by omega, by omega, ?_, ?_, hsort', ?_⟩
                  · have h1 : p.take t <:+ p.take p.length := hmbt.1.2
                    rw [List.take_length] at h1
                    exact h1.trans hfullp
                  · intro x
                    rw [haccmem x]
                    constructor
                    · rintro ⟨hxo, hxle⟩
                      exact ⟨hxo, by omega⟩
                    · rintro ⟨hxo, hxt⟩
                      have h := record_complete hfull hmbt hxo hxt
                      exact ⟨hxo, by omega⟩
                  · intro k hk
                    have hne2 : k ≠ acc.length + 1 := fun h => hbr (by rw [hk, h])
                    have h := hcap k hk
                    rw [hlen1]
                    omega
                · have h1 : s.length - i = (s.length - (i+1)) + 1 := by omega
                  rw [h1, Nat.succ_mul] at hf
                  generalize (s.length - (i + 1)) * (p.length + 1) = A at hf ⊢
                  omega
              · next heqt => exact absurd heqt (by simp)
          · -- pattern not yet complete
            simp only [if_neg hrec]
            have hj1m : j + 1 < p.length := by omega
            by_cases hi1 : i + 1 < s.length
            · simp only [if_pos hi1]
              have hpj1 : p[j+1]? = some (p.getD (j+1) default) := by
                rw [List.getElem?_eq_getElem hj1m, List.getD_eq_getElem p default hj1m]
              have hsi1 : s[i+1]? = some (s.getD (i+1) default) := by
                rw [List.getElem?_eq_getElem hi1, List.getD_eq_getElem s default hi1]
              split
              · next pc' sc' heq1' heq2' =>
                rw [hpj1] at heq1'
                rw [hsi1] at heq2'
                have hpc' : p.getD (j+1) default = pc' := Option.some.inj heq1'
                have hsc' : s.getD (i+1) default = sc' := Option.some.inj heq2'
                subst hpc'
                subst hsc'
                by_cases hne2 : p.getD (j+1) default = s.getD (i+1) default
                · -- next characters also equal: plain continuation
                  have hnn : ¬ (p.getD (j+1) default ≠ s.getD (i+1) default) :=
                    fun h => h hne2
                  simp only [if_neg hnn]
                  apply ih
                  · refine ⟨hj1m, by omega, by omega, hwin', ?_, hsort, hcap⟩
                    intro x
                    rw [hmem x]
                    constructor
                    · rintro ⟨hxo, hxj⟩
                      exact ⟨hxo, by omega⟩
                    · rintro ⟨hxo, hxj⟩
                      exact ⟨hxo, by omega⟩
                  · have h1 : s.length - i = (s.length - (i+1)) + 1 := by omega
                    rw [h1, Nat.succ_mul] at hf
                    generalize (s.length - (i + 1)) * (p.length + 1) = A at hf ⊢
                    omega
                · -- mismatch at the advanced cursors: fall back via the table
                  simp only [if_pos hne2, if_pos (Nat.succ_ne_zero j)]
                  simp only [Nat.add_sub_cancel]
                  rw [hπj]
                  have hmbt1 : IsMaxBord p (j+1) ((getPiList p).getD j 0) := hπ j hjm
                  set t := (getPiList p).getD j 0 with ht
                  have htj : t < j + 1 := hmbt1.2.1
                  split
                  · next t' heqt =>
                    have htt : t = t' := Option.some.inj heqt
                    subst htt
                    apply ih
                    · refine ⟨by omega, by omega, by omega, ?_, ?_, hsort, hcap⟩
                      · exact hmbt1.1.2.trans hwin'
                      · intro x
                        rw [hmem x]
                        constructor
                        · rintro ⟨hxo, hxj⟩
                          exact ⟨hxo, by omega⟩
                        · rintro ⟨hxo, hxt⟩
                          have h := fallback_complete hj1m hi1 hwin' hne2 hmbt1 hxo hxt
                          exact ⟨hxo, by omega⟩
                    · have h1 : s.length - i = (s.length - (i+1)) + 1 := by omega
                      rw [h1, Nat.succ_mul] at hf
                      generalize (s.length - (i + 1)) * (p.length + 1) = A at hf ⊢
                      omega
                  · next heqt => exact absurd heqt (by simp)
              · next hcontra =>
                exact (hcontra (p.getD (j+1) default) (s.getD (i+1) default) hpj1 hsi1).elim
            · -- text cursor reached the end: plain continuation, next guard exits
              simp only [if_neg hi1]
              apply ih
              · refine ⟨hj1m, by omega, by omega, hwin', ?_, hsort, hcap⟩
                intro x
                rw [hmem x]
                constructor
                · rintro ⟨hxo, hxj⟩
                  exact ⟨hxo, by omega⟩
                · rintro ⟨hxo, hxj⟩
                  exact ⟨hxo, by omega⟩
              · have h1 : s.length - i = (s.length - (i+1)) + 1 := by omega
                rw [h1, Nat.succ_mul] at hf
                generalize (s.length - (i + 1)) * (p.length + 1) = A at hf ⊢
                omega
        · -- the current characters differ: no cursor moves, then fall back
          have hb : ¬ (p.getD j default == s.getD i default) = true := by
            simp only [beq_iff_eq]
            exact hceq
          simp only [if_neg hb]
          simp only [if_neg (Nat.ne_of_lt hjm), if_pos hilt]
          split
          · next pc' sc' heq1' heq2' =>
            rw [hpj] at heq1'
            rw [hsi] at heq2'
            have hpc' : p.getD j default = pc' := Option.some.inj heq1'
            have hsc' : s.getD i default = sc' := Option.some.inj heq2'
            subst hpc'
            subst hsc'
            simp only [if_pos hceq]
            by_cases hj0 : j = 0
            · subst hj0
              simp only [if_neg (by omega : ¬ (0 : Nat) ≠ 0)]
              apply ih
              · refine ⟨hjm, by omega, by omega, by simp, ?_, hsort, hcap⟩
                intro x
                rw [hmem x]
                constructor
                · rintro ⟨hxo, hxj⟩
                  exact ⟨hxo, by omega⟩
                · rintro ⟨hxo, hxj⟩
                  refine ⟨hxo, ?_⟩
                  rcases Nat.lt_or_eq_of_le (by omega : x + 0 ≤ i) with h | h
                  · omega
                  · exfalso
                    have hchar := occ_char hxo hjm
                    rw [h] at hchar
                    rw [List.getElem?_eq_getElem hilt,
                      List.getElem?_eq_getElem hjm] at hchar
                    apply hceq
                    rw [List.getD_eq_getElem p default hjm,
                      List.getD_eq_getElem s default hilt]
                    exact (Option.some.inj hchar).symm
              · have h1 : s.length - i = (s.length - (i+1)) + 1 := by omega
                rw [h1, Nat.succ_mul] at hf
                generalize (s.length - (i + 1)) * (p.length + 1) = A at hf ⊢
                omega
            · simp only [if_pos hj0]
              have hj1 : j - 1 < p.length := by omega
              have hπjl : (getPiList p)[j - 1]? = some ((getPiList p).getD (j-1) 0) := by
                have hjl : j - 1 < (getPiList p).length := by rw [hπlen]; exact hj1
                rw [List.getElem?_eq_getElem hjl, List.getD_eq_getElem _ 0 hjl]
              rw [hπjl]
              have hmb : IsMaxBord p j ((getPiList p).getD (j-1) 0) := by
                have h := hπ (j-1) hj1
                rwa [Nat.sub_add_cancel (by omega)] at h
              set t := (getPiList p).getD (j-1) 0 with ht
              have htj : t < j := hmb.2.1
              split
              · next t' heqt =>
                have htt : t = t' := Option.some.inj heqt
                subst htt
                apply ih
                · refine ⟨by omega, by omega, hin, hmb.1.2.trans hwin, ?_, hsort, hcap⟩
                  intro x
                  rw [hmem x]
                  constructor
                  · rintro ⟨hxo, hxj⟩
                    exact ⟨hxo, by omega⟩
                  · rintro ⟨hxo, hxt⟩
                    have h := fallback_complete hjm hilt hwin hceq hmb hxo hxt
                    exact ⟨hxo, by omega⟩
                · generalize (s.length - i) * (p.length + 1) = A at hf ⊢
                  omega
              · next heqt => exact absurd heqt (by simp)
          · next hcontra =>
            exact (hcontra (p.getD j default) (s.getD i default) hpj hsi).elim
      · next hcontra =>
        exact (hcontra (p.getD j default) (s.getD i default) hpj hsi).elim

/-- `_search_first` returns the capped occurrence list (cap absent or ≥ 1). -/
lemma searchFirstRaw_eq (s p : List Char) (count : Option Nat) (hp : p ≠ [])
    (hcnt : ∀ k, count = some k → 1 ≤ k) :
    searchFirstRaw s p count = .ok (capResult (occList s p) count) := by
  apply searchFirstLoop_spec s p hp count
  · refine ⟨List.length_pos.mpr hp, Nat.le_refl 0, Nat.zero_le _, by simp, ?_,
      List.Pairwise.nil, ?_⟩
    · intro o
      constructor
      · intro h
        exact absurd h (List.not_mem_nil o)
      · rintro ⟨_, h⟩
        omega
    · intro k hk
      have := hcnt k hk
      simp only [List.length_nil]
      omega
  · have h2 : s.length * (p.length + 1) < (s.length + 1) * (p.length + 1) :=
      (Nat.mul_lt_mul_right (by omega : 0 < p.length + 1)).mpr (by omega)
    simp only [Nat.sub_zero]
    omega

/-- The `_search_last` loop terminates without error on a non-empty pattern:
it always returns some list (no claim about its content — see the
counterexamples to the backward scan's correctness). -/
lemma searchLastLoop_ok (s p : List Char) (hp : p ≠ []) (count : Option Nat) :
    ∀ fuel i j acc, j < p.length → j ≤ i → i ≤ s.length →
      (s.length - i) * (p.length + 1) + j < fuel →
      ∃ r, searchLastLoop s p (getPiList p) count fuel i j acc = .ok r := by
  obtain ⟨hπlen, hπ⟩ := getPiList_spec p hp
  intro fuel
  induction fuel with
  | zero => intro i j acc _ _ _ hf; exact absurd hf (Nat.not_lt_zero _)
  | succ f ih =>
    intro i j acc hjm hji hin hf
    by_cases hguard : p.length - j ≤ s.length - i
    case neg =>
      refine ⟨acc, ?_⟩
      simp only [searchLastLoop]
      rw [if_neg hguard]
    case pos =>
      have hilt : i < s.length := by omega
      have hpix : p.length - 1 - j < p.length := by omega
      have hsix : s.length - 1 - i < s.length := by omega
      have hpj : p[p.length - 1 - j]? = some (p.getD (p.length - 1 - j) default) := by
        rw [List.getElem?_eq_getElem hpix, List.getD_eq_getElem p default hpix]
      have hsi : s[s.length - 1 - i]? = some (s.getD (s.length - 1 - i) default) := by
        rw [List.getElem?_eq_getElem hsix, List.getD_eq_getElem s default hsix]
      have hπj : (getPiList p)[j]? = some ((getPiList p).getD j 0) := by
        have hjl : j < (getPiList p).length := by rw [hπlen]; exact hjm
        rw [List.getElem?_eq_getElem hjl, List.getD_eq_getElem _ 0 hjl]
      simp only [searchLastLoop]
      rw [if_pos hguard]
      split
      · next pc sc heq1 heq2 =>
        rw [hpj] at heq1
        rw [hsi] at heq2
        have hpc : p.getD (p.length - 1 - j) default = pc := Option.some.inj heq1
        have hsc : s.getD (s.length - 1 - i) default = sc := Option.some.inj heq2
        subst hpc
        subst hsc
        by_cases hceq :
            p.getD (p.length - 1 - j) default = s.getD (s.length - 1 - i) default
        · have hb : (p.getD (p.length - 1 - j) default
              == s.getD (s.length - 1 - i) default) = true := beq_iff_eq.mpr hceq
          simp only [hb, if_true]
          by_cases hrec : j + 1 = p.length
          · simp only [if_pos hrec]
            by_cases hbr : (count == some ((acc ++ [s.length - (i+1)]).length)) = true
            · rw [if_pos hbr]
              exact ⟨_, rfl⟩
            · rw [if_neg hbr]
              simp only [Nat.add_sub_cancel]
              rw [hπj]
              have hmbt : IsMaxBord p (j+1) ((getPiList p).getD j 0) := hπ j hjm
              have htj : (getPiList p).getD j 0 < j + 1 := hmbt.2.1
              split
              · next t' heqt =>
                have htt : (getPiList p).getD j 0 = t' := Option.some.inj heqt
                subst htt
                apply ih
                · omega
                · omega
                · omega
                · have h1 : s.length - i = (s.length - (i+1)) + 1 := by omega
                  rw [h1, Nat.succ_mul] at hf
                  generalize (s.length - (i + 1)) * (p.length + 1) = A at hf ⊢
                  omega
              · next heqt => exact absurd heqt (by simp)
          · simp only [if_neg hrec]
            have hj1m : j + 1 < p.length := by omega
            by_cases hi1 : i + 1 < s.length
            · simp only [if_pos hi1]
              have hpix1 : p.length - 1 - (j+1) < p.length := by omega
              have hsix1 : s.length - 1 - (i+1) < s.length := by omega
              have hpj1 : p[p.length - 1 - (j+1)]?
                  = some (p.getD (p.length - 1 - (j+1)) default) := by
                rw [List.getElem?_eq_getElem hpix1, List.getD_eq_getElem p default hpix1]
              have hsi1 : s[s.length - 1 - (i+1)]?
                  = some (s.getD (s.length - 1 - (i+1)) default) := by
                rw [List.getElem?_eq_getElem hsix1, List.getD_eq_getElem s default hsix1]
              split
              · next pc' sc' heq1' heq2' =>
                rw [hpj1] at heq1'
                rw [hsi1] at heq2'
                have hpc' : p.getD (p.length - 1 - (j+1)) default = pc' :=
                  Option.some.inj heq1'
                have hsc' : s.getD (s.length - 1 - (i+1)) default = sc' :=
                  Option.some.inj heq2'
                subst hpc'
                subst hsc'
                by_cases hne2 : p.getD (p.length - 1 - (j+1)) default
                    = s.getD (s.length - 1 - (i+1)) default
                · have hnn : ¬ (p.getD (p.length - 1 - (j+1)) default
                      ≠ s.getD (s.length - 1 - (i+1)) default) := fun h => h hne2
                  simp only [if_neg hnn]
                  apply ih
                  · exact hj1m
                  · omega
                  · omega
                  · have h1 : s.length - i = (s.length - (i+1)) + 1 := by omega
                    rw [h1, Nat.succ_mul] at hf
                    generalize (s.length - (i + 1)) * (p.length + 1) = A at hf ⊢
                    omega
                · simp only [if_pos hne2, if_pos (Nat.succ_ne_zero j)]
                  simp only [Nat.add_sub_cancel]
                  rw [hπj]
                  have hmbt1 : IsMaxBord p (j+1) ((getPiList p).getD j 0) := hπ j hjm
                  have htj : (getPiList p).getD j 0 < j + 1 := hmbt1.2.1
                  split
                  · next t' heqt =>
                    have htt : (getPiList p).getD j 0 = t' := Option.some.inj heqt
                    subst htt
                    apply ih
                    · omega
                    · omega
                    · omega
                    · have h1 : s.length - i = (s.length - (i+1)) + 1 := by omega
                      rw [h1, Nat.succ_mul] at hf
                      generalize (s.length - (i + 1)) * (p.length + 1) = A at hf ⊢
                      omega
                  · next heqt => exact absurd heqt (by simp)
              · next hcontra =>
                exact (hcontra _ _ hpj1 hsi1).elim
            · simp only [if_neg hi1]
              apply ih
              · exact hj1m
              · omega
              · omega
              · have h1 : s.length - i = (s.length - (i+1)) + 1 := by omega
                rw [h1, Nat.succ_mul] at hf
                generalize (s.length - (i + 1)) * (p.length + 1) = A at hf ⊢
                omega
        · have hb : ¬ (p.getD (p.length - 1 - j) default
              == s.getD (s.length - 1 - i) default) = true := by
            simp only [beq_iff_eq]
            exact hceq
          simp only [if_neg hb]
          simp only [if_neg (Nat.ne_of_lt hjm), if_pos hilt]
          split
          · next pc' sc' heq1' heq2' =>
            rw [hpj] at heq1'
            rw [hsi] at heq2'
            have hpc' : p.getD (p.length - 1 - j) default = pc' := Option.some.inj heq1'
            have hsc' : s.getD (s.length - 1 - i) default = sc' := Option.some.inj heq2'
            subst hpc'
            subst hsc'
            simp only [if_pos hceq]
            by_cases hj0 : j = 0
            · subst hj0
              simp only [if_neg (by omega : ¬ (0 : Nat) ≠ 0)]
              apply ih
              · exact hjm
              · omega
              · omega
              · have h1 : s.length - i = (s.length - (i+1)) + 1 := by omega
                rw [h1, Nat.succ_mul] at hf
                generalize (s.length - (i + 1)) * (p.length + 1) = A at hf ⊢
                omega
            · simp only [if_pos hj0]
              have hj1 : j - 1 < p.length := by omega
              have hπjl : (getPiList p)[j - 1]? = some ((getPiList p).getD (j-1) 0) := by
                have hjl : j - 1 < (getPiList p).length := by rw [hπlen]; exact hj1
                rw [List.getElem?_eq_getElem hjl, List.getD_eq_getElem _ 0 hjl]
              rw [hπjl]
              have hmb : IsMaxBord p j ((getPiList p).getD (j-1) 0) := by
                have h := hπ (j-1) hj1
                rwa [Nat.sub_add_cancel (by omega)] at h
              have htj : (getPiList p).getD (j-1) 0 < j := hmb.2.1
              split
              · next t' heqt =>
                have htt : (getPiList p).getD (j-1) 0 = t' := Option.some.inj heqt
                subst htt
                apply ih
                · omega
                · omega
                · exact hin
                · generalize (s.length - i) * (p.length + 1) = A at hf ⊢
                  omega
              · next heqt => exact absurd heqt (by simp)
          · next hcontra =>
            exact (hcontra _ _ hpj hsi).elim
      · next hcontra =>
        exact (hcontra _ _ hpj hsi).elim

/-- `_search_last` never fails on a non-empty pattern. -/
lemma searchLastRaw_ok (s p : List Char) (hp : p ≠ []) (count : Option Nat) :
    ∃ r, searchLastRaw s p count = .ok r := by
  apply searchLastLoop_ok s p hp count
  · exact List.length_pos.mpr hp
  · exact Nat.le_refl 0
  · exact Nat.zero_le _
  · have h2 : s.length * (p.length + 1) < (s.length + 1) * (p.length + 1) :=
      (Nat.mul_lt_mul_right (by omega : 0 < p.length + 1)).mpr (by omega)
    simp only [Nat.sub_zero]
    omega

/-! ### Result shaping -/

lemma mapM_ok {α β : Type} (f : α → Except ScanErr β) (g : α → β) :
    ∀ l : List α, (∀ x, x ∈ l → f x = .ok (g x)) → l.mapM f = .ok (l.map g) := by
  intro l
  induction l with
  | nil => intro _; rfl
  | cons a t ih =>
    intro h
    rw [List.mapM_cons, h a (List.mem_cons_self a t),
      ih (fun x hx => h x (List.mem_cons_of_mem _ hx))]
    rfl

lemma foldl_keys_mem :
    ∀ (l acc : List (List Char)) (x : List Char),
      x ∈ l.foldl (fun acc k => if k ∈ acc then acc else acc ++ [k]) acc →
      x ∈ acc ∨ x ∈ l := by
  intro l
  induction l with
  | nil => intro acc x h; exact Or.inl h
  | cons a t ih =>
    intro acc x h
    simp only [List.foldl_cons] at h
    rcases ih _ x h with h' | h'
    · by_cases ha : a ∈ acc
      · rw [if_pos ha] at h'
        exact Or.inl h'
      · rw [if_neg ha] at h'
        rcases List.mem_append.mp h' with h'' | h''
        · exact Or.inl h''
        · rw [List.mem_singleton] at h''
          subst h''
          exact Or.inr (List.mem_cons_self x t)
    · exact Or.inr (List.mem_cons_of_mem _ h')

lemma foldl_keys_mem_of :
    ∀ (l acc : List (List Char)) (x : List Char),
      (x ∈ acc ∨ x ∈ l) →
      x ∈ l.foldl (fun acc k => if k ∈ acc then acc else acc ++ [k]) acc := by
  intro l
  induction l with
  | nil =>
    intro acc x h
    exact h.resolve_right (List.not_mem_nil x)
  | cons a t ih =>
    intro acc x h
    simp only [List.foldl_cons]
    apply ih
    rcases h with h | h
    · left
      by_cases ha : a ∈ acc
      · rwa [if_pos ha]
      · rw [if_neg ha]
        exact List.mem_append_left _ h
    · rcases List.mem_cons.mp h with h' | h'
      · subst h'
        left
        by_cases ha : x ∈ acc
        · rwa [if_pos ha]
        · rw [if_neg ha]
          exact List.mem_append_right _ (List.mem_singleton.mpr rfl)
      · exact Or.inr h'

lemma dictKeys_subset {l : List (List Char)} {x : List Char}
    (h : x ∈ dictKeys l) : x ∈ l :=
  (foldl_keys_mem l [] x h).resolve_left (List.not_mem_nil x)

lemma mem_dictKeys {l : List (List Char)} {x : List Char}
    (h : x ∈ l) : x ∈ dictKeys l :=
  foldl_keys_mem_of l [] x (Or.inr h)

lemma foldl_keys_ne_nil :
    ∀ (l acc : List (List Char)), acc ≠ [] →
      l.foldl (fun acc k => if k ∈ acc then acc else acc ++ [k]) acc ≠ [] := by
  intro l
  induction l with
  | nil => intro acc h; exact h
  | cons a t ih =>
    intro acc h
    simp only [List.foldl_cons]
    apply ih
    by_cases ha : a ∈ acc
    · rwa [if_pos ha]
    · rw [if_neg ha]
      simp

lemma dictKeys_ne_nil {l : List (List Char)} (h : l ≠ []) : dictKeys l ≠ [] := by
  cases l with
  | nil => exact absurd rfl h
  | cons a t =>
    show List.foldl _ (if a ∈ ([] : List (List Char)) then [] else [] ++ [a]) t ≠ []
    rw [if_neg (List.not_mem_nil a)]
    exact foldl_keys_ne_nil t ([] ++ [a]) (by simp)

/-! ### The claims -/

/-- C1: for every text and non-empty pattern, with no cap and no case
folding, the forward scan returns exactly the list of all offsets `o` with
`T[o:o+len(P)] == P` in ascending order, including overlapping occurrences;
e.g. text `"aaaa"`, pattern `"aa"` yields `(0, 1, 2)`. -/
theorem C1_forward_scan_exact (s p : List Char) (hp : p ≠ []) :
    searchFirstRaw s p none = .ok (occList s p) ∧
    (∀ o, o ∈ occList s p ↔ o + p.length ≤ s.length ∧ (s.drop o).take p.length = p) ∧
    (occList s p).Pairwise (· < ·) ∧
    searchFirst ['a','a','a','a'] ['a','a'] none = .ok (some [0, 1, 2]) := by
  refine ⟨?_, fun o => occList_mem, occList_sorted s p, by rfl⟩
  exact searchFirstRaw_eq s p none hp (fun k hk => by cases hk)

/-- Witness for C1 at text `"abab"`, pattern `"ab"`. -/
theorem C1_forward_scan_exact_witness :
    searchFirstRaw ['a','b','a','b'] ['a','b'] none
        = .ok (occList ['a','b','a','b'] ['a','b']) ∧
    (∀ o, o ∈ occList ['a','b','a','b'] ['a','b'] ↔
      o + (['a','b'] : List Char).length ≤ (['a','b','a','b'] : List Char).length ∧
      ((['a','b','a','b'] : List Char).drop o).take (['a','b'] : List Char).length
        = ['a','b']) ∧
    (occList ['a','b','a','b'] ['a','b']).Pairwise (· < ·) ∧
    searchFirst ['a','a','a','a'] ['a','a'] none = .ok (some [0, 1, 2]) :=
  C1_forward_scan_exact ['a','b','a','b'] ['a','b'] (by decide)

/-- C2: for every non-empty pattern the failure-function builder returns a
table of the pattern's length whose entry `k` is the length of the longest
proper prefix of the pattern that is also a suffix of the pattern's first
`k+1` characters (`IsMaxBord p (k+1)`), and `"aabaabaaa"` yields
`[0,1,0,1,2,3,4,5,2]`. -/
theorem C2_pi_table_correct (p : List Char) (hp : p ≠ []) :
    (getPiList p).length = p.length ∧
    (∀ k, k < p.length → IsMaxBord p (k+1) ((getPiList p).getD k 0)) ∧
    getPiList ['a','a','b','a','a','b','a','a','a'] = [0,1,0,1,2,3,4,5,2] := by
  obtain ⟨h1, h2⟩ := getPiList_spec p hp
  exact ⟨h1, h2, by rfl⟩

/-- Witness for C2 at pattern `"abab"`. -/
theorem C2_pi_table_correct_witness :
    (getPiList ['a','b','a','b']).length = (['a','b','a','b'] : List Char).length ∧
    (∀ k, k < (['a','b','a','b'] : List Char).length →
      IsMaxBord ['a','b','a','b'] (k+1) ((getPiList ['a','b','a','b']).getD k 0)) ∧
    getPiList ['a','a','b','a','a','b','a','a','a'] = [0,1,0,1,2,3,4,5,2] :=
  C2_pi_table_correct ['a','b','a','b'] (by decide)

/-- C7: with `max_matches = k ≥ 1` the forward scan returns exactly the
first `k` matches in ascending order (all matches when fewer than `k`
exist); the cap stop is formalized as the value being the length-`k` initial
segment of the full occurrence list. -/
theorem C7_forward_cap (s p : List Char) (hp : p ≠ []) (k : Nat) (hk : 1 ≤ k) :
    searchFirstRaw s p (some k) = .ok ((occList s p).take k) :=
  searchFirstRaw_eq s p (some k) hp
    (fun _ hk' => Option.some.inj hk' ▸ hk)

/-- Witness for C7: the first two of the three matches of `"aa"` in `"aaaa"`. -/
theorem C7_forward_cap_witness :
    searchFirstRaw ['a','a','a','a'] ['a','a'] (some 2)
      = .ok ((occList ['a','a','a','a'] ['a','a']).take 2) :=
  C7_forward_cap ['a','a','a','a'] ['a','a'] (by decide) 2 (by decide)

/-- C3 (code bug): on text `"baaa"` and pattern `"baa"` with no cap the
backward scan reports no matches, although the pattern occurs at offset 0 and
the forward scan finds it.  The backward loop consumes the failure table of
the forward pattern while comparing reversed positions, which makes it forget
viable partial matches. -/
theorem C3_backward_scan_misses_match :
    searchLast ['b','a','a','a'] ['b','a','a'] none = .ok none ∧
    occList ['b','a','a','a'] ['b','a','a'] = [0] ∧
    searchFirstRaw ['b','a','a','a'] ['b','a','a'] none = .ok [0] :=
  ⟨by rfl, by rfl, by rfl⟩

/-- C4 (code bug): reversal symmetry fails.  Forward search of the
reversed text `"aaab"` for the reversed pattern `"aab"` finds offset 1, whose
transform `4 - (1 + 3) = 0` should therefore be found by the backward search
of `"baaa"` for `"baa"`, but that search returns the empty list. -/
theorem C4_reversal_symmetry_fails :
    searchFirstRaw ['a','a','a','b'] ['a','a','b'] none = .ok [1] ∧
    List.map (fun o => 4 - (o + 3)) [1] = [0] ∧
    searchLastRaw ['b','a','a','a'] ['b','a','a'] none = .ok [] ∧
    searchLastRaw ['b','a','a','a'] ['b','a','a'] none
      ≠ .ok (List.map (fun o => 4 - (o + 3)) [1]) :=
  ⟨by rfl, by rfl, by rfl, by
    intro h
    rw [show searchLastRaw ['b','a','a','a'] ['b','a','a'] none = .ok [] from rfl] at h
    simp at h⟩

lemma searchEngine_entries (s : List Char) (subs : List (List Char))
    (method : List Char) (count : Option Nat)
    (entries : List (List Char × Option (List Nat)))
    (h : (dictKeys subs).mapM (fun k => (do
        let r ← (if method = firstLit then searchFirst s k count
                 else searchLast s k count)
        pure (k, r) : Except ScanErr (List Char × Option (List Nat))))
      = .ok entries) :
    searchEngine s subs method count = .ok (convertResult entries) := by
  simp only [searchEngine]
  rw [h]
  rfl

/-- C5: a call with exactly one pattern returns that pattern's match set
directly, or the no-matches sentinel (`None`) when it is empty; a call with
any patterns whose match sets are all empty returns the single sentinel. -/
theorem C5_single_collapse_and_all_empty :
    (∀ (s p method : List Char) (count : Option Nat) (r : Option (List Nat)),
        (if method = firstLit then searchFirst s p count else searchLast s p count)
          = .ok r →
        searchEngine s [p] method count
          = .ok (match r with
                 | none => PyResult.noneRes
                 | some t => PyResult.tupleRes t)) ∧
    (∀ (s : List Char) (subs : List (List Char)) (method : List Char)
        (count : Option Nat),
        subs ≠ [] →
        (∀ p, p ∈ subs →
          (if method = firstLit then searchFirst s p count else searchLast s p count)
            = .ok none) →
        searchEngine s subs method count = .ok .noneRes) := by
  constructor
  · intro s p method count r hr
    have hkeys : dictKeys [p] = [p] := by simp [dictKeys]
    have hmap : (dictKeys [p]).mapM (fun k => (do
        let r' ← (if method = firstLit then searchFirst s k count
                  else searchLast s k count)
        pure (k, r') : Except ScanErr (List Char × Option (List Nat))))
        = .ok [(p, r)] := by
      rw [hkeys]
      have := mapM_ok (fun k => (do
        let r' ← (if method = firstLit then searchFirst s k count
                  else searchLast s k count)
        pure (k, r') : Except ScanErr (List Char × Option (List Nat))))
        (fun _ => (p, r)) [p] ?_
      · simpa using this
      · intro x hx
        rw [List.mem_singleton] at hx
        subst hx
        simp only [hr]
        rfl
    rw [searchEngine_entries s [p] method count [(p, r)] hmap]
    cases r with
    | none => rfl
    | some t => rfl
  · intro s subs method count hne hall
    have hmap := mapM_ok (fun k => (do
        let r' ← (if method = firstLit then searchFirst s k count
                  else searchLast s k count)
        pure (k, r') : Except ScanErr (List Char × Option (List Nat))))
      (fun k => (k, none)) (dictKeys subs)
      (fun x hx => by simp only [hall x (dictKeys_subset hx)]; rfl)
    rw [searchEngine_entries s subs method count _ hmap]
    have hkne : dictKeys subs ≠ [] := dictKeys_ne_nil hne
    cases hk : dictKeys subs with
    | nil => exact absurd hk hkne
    | cons a t =>
      cases t with
      | nil => rfl
      | cons b t2 =>
        show Except.ok (convertResult ((a, none) :: (b, none) ::
          t2.map (fun k => (k, none)))) = _
        have hall2 : ((a, (none : Option (List Nat))) :: (b, none) ::
            t2.map (fun k => (k, none))).all (fun e => e.2 == none) = true := by
          rw [List.all_eq_true]
          intro e he
          rcases List.mem_cons.mp he with rfl | he
          · rfl
          rcases List.mem_cons.mp he with rfl | he
          · rfl
          · obtain ⟨k, _, rfl⟩ := List.mem_map.mp he
            rfl
        show Except.ok (if ((a, (none : Option (List Nat))) :: (b, none) ::
          t2.map (fun k => (k, none))).all (fun e => e.2 == none) = true
          then PyResult.noneRes
          else PyResult.dictRes _) = _
        rw [if_pos hall2]

/-- Witness for C5: `search("abcabc","abc")` collapses to the tuple `(0, 3)`,
and `search("xyz", ["a","b"])` collapses to the sentinel. -/
theorem C5_single_collapse_and_all_empty_witness :
    searchEngine ['a','b','c','a','b','c'] [['a','b','c']] firstLit none
      = .ok (.tupleRes [0, 3]) ∧
    searchEngine ['x','y','z'] [['a'], ['b']] firstLit none = .ok .noneRes := by
  constructor
  · exact C5_single_collapse_and_all_empty.1 ['a','b','c','a','b','c'] ['a','b','c']
      firstLit none (some [0, 3]) (by rfl)
  · apply C5_single_collapse_and_all_empty.2 ['x','y','z'] [['a'], ['b']] firstLit none
      (by simp)
    intro p hp
    rcases List.mem_cons.mp hp with rfl | hp
    · rfl
    rcases List.mem_cons.mp hp with rfl | hp
    · rfl
    · exact absurd hp (List.not_mem_nil p)

/-- C6 counterexample: the duplicate pattern list `["a","a"]` against text
`"a"` has two supplied patterns and a match, yet the result is the plain tuple
`(0,)`, not a mapping — Python's `dict.fromkeys` collapses duplicate keys, so
the shape depends on the number of *distinct* patterns. -/
theorem C6_shape_counterexample :
    searchPy (.str ['a']) (.list [.str ['a'], .str ['a']]) (.bool true)
        (.str firstLit) .pynone = .ok (.tupleRes [0]) ∧
    ∀ e, searchPy (.str ['a']) (.list [.str ['a'], .str ['a']]) (.bool true)
        (.str firstLit) .pynone ≠ .ok (.dictRes e) := by
  constructor
  · rfl
  · intro e h
    have h1 : (Except.ok (PyResult.tupleRes [0]) : Except PyErr PyResult)
        = .ok (.dictRes e) :=
      (show searchPy (.str ['a']) (.list [.str ['a'], .str ['a']]) (.bool true)
          (.str firstLit) .pynone = .ok (.tupleRes [0]) from rfl).symm.trans h
    simp at h1

/-- C6 amended: the result shape is determined solely by the number of
*distinct* patterns (after normalization) and by whether all match sets are
empty: with at least two distinct patterns and some non-empty match set the
result is the mapping whose keys are the distinct patterns in first-occurrence
order, each with its own match set. -/
theorem C6_shape_by_distinct_patterns
    (s : List Char) (subs : List (List Char)) (method : List Char)
    (count : Option Nat) (g : List Char → Option (List Nat))
    (hscan : ∀ p, p ∈ dictKeys subs →
      (if method = firstLit then searchFirst s p count else searchLast s p count)
        = .ok (g p))
    (hlen : 2 ≤ (dictKeys subs).length)
    (hsome : ∃ p, p ∈ subs ∧ g p ≠ none) :
    searchEngine s subs method count
      = .ok (.dictRes ((dictKeys subs).map (fun k => (k, g k)))) := by
  have hmap := mapM_ok (fun k => (do
      let r' ← (if method = firstLit then searchFirst s k count
                else searchLast s k count)
      pure (k, r') : Except ScanErr (List Char × Option (List Nat))))
    (fun k => (k, g k)) (dictKeys subs)
    (fun x hx => by simp only [hscan x hx]; rfl)
  rw [searchEngine_entries s subs method count _ hmap]
  have hallf : ¬ ((dictKeys subs).map (fun k => (k, g k))).all
      (fun e => e.2 == none) = true := by
    intro hall
    obtain ⟨p0, hp0, hg0⟩ := hsome
    have hmem : (p0, g p0) ∈ (dictKeys subs).map (fun k => (k, g k)) :=
      List.mem_map.mpr ⟨p0, mem_dictKeys hp0, rfl⟩
    have := (List.all_eq_true.mp hall) _ hmem
    rw [beq_iff_eq] at this
    exact hg0 this
  cases hk : dictKeys subs with
  | nil => rw [hk] at hlen; simp at hlen
  | cons a t =>
    cases t with
    | nil => rw [hk] at hlen; simp at hlen
    | cons b t2 =>
      rw [hk] at hallf
      show Except.ok (convertResult ((a, g a) :: (b, g b) ::
        t2.map (fun k => (k, g k)))) = _
      show Except.ok (if ((a, g a) :: (b, g b) ::
          t2.map (fun k => (k, g k))).all (fun e => e.2 == none) = true
        then PyResult.noneRes
        else PyResult.dictRes ((a, g a) :: (b, g b) :: t2.map (fun k => (k, g k))))
        = _
      rw [if_neg (by simpa using hallf)]
      simp only [List.map_cons]

/-- Witness for the amended C6: `search("xyz", ["a","x"])` yields the mapping
`{"a": None, "x": (0,)}`. -/
theorem C6_shape_by_distinct_patterns_witness :
    searchEngine ['x','y','z'] [['a'], ['x']] firstLit none
      = .ok (.dictRes ((dictKeys [['a'], ['x']]).map
          (fun k => (k, if k = ['x'] then some [0] else none)))) := by
  apply C6_shape_by_distinct_patterns ['x','y','z'] [['a'], ['x']] firstLit none
    (fun k => if k = ['x'] then some [0] else none)
  · intro p hp
    have hk : dictKeys [['a'], ['x']] = [['a'], ['x']] := by rfl
    rw [hk] at hp
    rcases List.mem_cons.mp hp with rfl | hp
    · rfl
    rcases List.mem_cons.mp hp with rfl | hp
    · rfl
    · exact absurd hp (List.not_mem_nil p)
  · rfl
  · exact ⟨['x'], by simp, by simp⟩

/-- The input contract of `search` as the claims state it: text a string,
patterns a string or a list/tuple of strings, `case_sensitivity` boolean,
direction one of the two literals, `max_matches` absent or a positive integer
`≥ 1` (Python's `bool` being a subtype of `int`). -/
def validOk (string sub_string case_sensitivity method count : PyObj) : Prop :=
  isStr string = true ∧
  (isStr sub_string = true ∨
    (isListOrTuple sub_string = true ∧ (seqElems sub_string).all isStr = true)) ∧
  isBool case_sensitivity = true ∧
  isStr method = true ∧ (getStr method = firstLit ∨ getStr method = lastLit) ∧
  (isNone count = true ∨ (isInt count = true ∧ 1 ≤ pyIntVal count))

lemma validate_none_iff (a b c d e : PyObj) :
    validate a b c d e = none ↔ validOk a b c d e := by
  unfold validate validOk
  split_ifs with h1 h2 h3 h4 h5 h6 h7 h8
  all_goals simp_all
  constructor
  · cases hsb : isStr b
    · exact Or.inr ⟨h2 hsb, h3 hsb⟩
    · exact Or.inl rfl
  · cases hne : isNone e
    · exact Or.inr ⟨h7 hne, h8 hne⟩
    · exact Or.inl rfl

lemma validate_cases (a b c d e : PyObj) :
    validate a b c d e = none ∨ validate a b c d e = some .typeError ∨
      validate a b c d e = some .valueError := by
  unfold validate
  split_ifs <;> simp

lemma wrapScan_ne (x : Except ScanErr PyResult) :
    wrapScan x ≠ .error .typeError ∧ wrapScan x ≠ .error .valueError := by
  cases x <;> simp [wrapScan]

lemma searchPy_no_validation_error (a b c d e : PyObj)
    (hv : validate a b c d e = none) :
    searchPy a b c d e ≠ .error .typeError ∧
      searchPy a b c d e ≠ .error .valueError := by
  refine ⟨?_, ?_⟩
  all_goals
    unfold searchPy
    rw [hv]
    split
    · next e' heq => exact absurd heq (by simp)
    · first
      | exact (wrapScan_ne _).1
      | exact (wrapScan_ne _).2

/-- C8: `search` raises a type or value error, before any scanning and
with no partial result, exactly when an input violates its contract:
validation passing is equivalent to the contract, a failed validation is
surfaced unchanged as the call's only outcome, and a passing call can only
return a result or a scan error. -/
theorem C8_validation_exact (a b c d e : PyObj) :
    (validate a b c d e = none ↔ validOk a b c d e) ∧
    ((searchPy a b c d e = .error .typeError ∨
        searchPy a b c d e = .error .valueError) ↔ ¬ validOk a b c d e) ∧
    (∀ err, validate a b c d e = some err → searchPy a b c d e = .error err) := by
  have hprop : ∀ err, validate a b c d e = some err →
      searchPy a b c d e = .error err := by
    intro err herr
    unfold searchPy
    rw [herr]
  refine ⟨validate_none_iff a b c d e, ⟨?_, ?_⟩, hprop⟩
  · intro h hv
    have hvn : validate a b c d e = none := (validate_none_iff a b c d e).mpr hv
    have hne := searchPy_no_validation_error a b c d e hvn
    rcases h with h | h
    · exact hne.1 h
    · exact hne.2 h
  · intro h
    rcases validate_cases a b c d e with hv | hv | hv
    · exact absurd ((validate_none_iff a b c d e).mp hv) h
    · exact Or.inl (hprop _ hv)
    · exact Or.inr (hprop _ hv)

/-- C9: with `case_sensitive = false` both text and patterns are folded
to lower case before matching (offsets refer to the original text, whose
positions case folding preserves); `search("ABCabc","ABC")` finds offsets 0
and 3 case-insensitively and only 0 case-sensitively. -/
theorem C9_case_folding :
    (∀ (s p m : List Char) (c : PyObj),
        searchPy (.str s) (.str p) (.bool false) (.str m) c
          = searchPy (.str (pyLower s)) (.str (pyLower p)) (.bool true) (.str m) c) ∧
    searchPy (.str ['A','B','C','a','b','c']) (.str ['A','B','C']) (.bool false)
        (.str firstLit) .pynone = .ok (.tupleRes [0, 3]) ∧
    searchPy (.str ['A','B','C','a','b','c']) (.str ['A','B','C']) (.bool true)
        (.str firstLit) .pynone = .ok (.tupleRes [0]) := by
  refine ⟨?_, by rfl, by rfl⟩
  intro s p m c
  have hv : validate (.str s) (.str p) (.bool false) (.str m) c
      = validate (.str (pyLower s)) (.str (pyLower p)) (.bool true) (.str m) c := by
    unfold validate
    rfl
  unfold searchPy
  rw [hv]
  cases validate (.str (pyLower s)) (.str (pyLower p)) (.bool true) (.str m) c with
  | some err => rfl
  | none => rfl

lemma searchFirstLoop_nil_pattern (s : List Char) (piL : List Nat)
    (count : Option Nat) (f i j : Nat) (acc : List Nat) :
    searchFirstLoop s [] piL count (f+1) i j acc = .error .indexError := by
  simp only [searchFirstLoop]
  rw [if_pos (by simp)]
  split
  · next pc sc heq1 heq2 => exact absurd heq1 (by simp)
  · rfl

lemma searchLastLoop_nil_pattern (s : List Char) (piL : List Nat)
    (count : Option Nat) (f i j : Nat) (acc : List Nat) :
    searchLastLoop s [] piL count (f+1) i j acc = .error .indexError := by
  simp only [searchLastLoop]
  rw [if_pos (by simp)]
  split
  · next pc sc heq1 heq2 => exact absurd heq1 (by simp)
  · rfl

lemma searchFirst_nil_pattern (s : List Char) (count : Option Nat) :
    searchFirst s [] count = .error .indexError := by
  unfold searchFirst searchFirstRaw
  rw [show (s.length + 1) * (([] : List Char).length + 1) = s.length + 1 by simp]
  rw [searchFirstLoop_nil_pattern]
  rfl

lemma searchLast_nil_pattern (s : List Char) (count : Option Nat) :
    searchLast s [] count = .error .indexError := by
  unfold searchLast searchLastRaw
  rw [show (s.length + 1) * (([] : List Char).length + 1) = s.length + 1 by simp]
  rw [searchLastLoop_nil_pattern]
  rfl

lemma mapM_singleton_err {α β : Type} (f : α → Except ScanErr β) (x : α)
    (e : ScanErr) (h : f x = .error e) : [x].mapM f = .error e := by
  rw [List.mapM_cons, h]
  rfl

lemma searchEngine_nil_pattern (s : List Char) (method : List Char)
    (count : Option Nat) :
    searchEngine s [[]] method count = .error .indexError := by
  have hscan : (if method = firstLit then searchFirst s [] count
      else searchLast s [] count) = .error .indexError := by
    by_cases hm : method = firstLit
    · rw [if_pos hm, searchFirst_nil_pattern]
    · rw [if_neg hm, searchLast_nil_pattern]
  simp only [searchEngine]
  rw [show dictKeys [[]] = [[]] from rfl]
  rw [mapM_singleton_err _ _ ScanErr.indexError (by simp only [hscan]; rfl)]
  rfl

/-- Witness for C8: the rejected call `search("a", "a", count=0)` raises the
value error before any scan. -/
theorem C8_validation_exact_witness :
    searchPy (.str ['a']) (.str ['a']) (.bool true) (.str firstLit) (.int 0)
      = .error .valueError :=
  (C8_validation_exact (.str ['a']) (.str ['a']) (.bool true) (.str firstLit)
    (.int 0)).2.2 .valueError (by rfl)

/-- C10: an empty-string pattern passes validation (it is a string), and
then both scan directions fail with the Python `IndexError` surfaced by the
first pattern index: `search` never returns a result for an empty pattern. -/
theorem C10_empty_pattern_index_error (s : List Char) (cs : Bool) :
    validate (.str s) (.str []) (.bool cs) (.str firstLit) .pynone = none ∧
    validate (.str s) (.str []) (.bool cs) (.str lastLit) .pynone = none ∧
    searchPy (.str s) (.str []) (.bool cs) (.str firstLit) .pynone
      = .error (.scan .indexError) ∧
    searchPy (.str s) (.str []) (.bool cs) (.str lastLit) .pynone
      = .error (.scan .indexError) := by
  refine ⟨rfl, rfl, ?_, ?_⟩
  · unfold searchPy
    rw [show validate (.str s) (.str []) (.bool cs) (.str firstLit) .pynone
      = none from rfl]
    simp [searchEngine_nil_pattern, wrapScan, pyLower, normPatterns, getStr]
  · unfold searchPy
    rw [show validate (.str s) (.str []) (.bool cs) (.str lastLit) .pynone
      = none from rfl]
    simp [searchEngine_nil_pattern, wrapScan, pyLower, normPatterns, getStr]

end KMPSearch
